import Mathlib

/-!
Verification of the tedium maintenance bot's core engine: a shallow
embedding of the pass registry, the repository snapshot (`ElementRepo`),
the review latch, the push governor (`pushIsAllowed`), the push routing
decision (`pushChanges`), the cleanup pass runner, repository
deduplication in `getRepos`, the chained-delay `rateLimit` scheduler, and
the orchestrator's error isolation (`_main` / `main`).

External effects (git pushes, the GitHub API, on-disk file edits, thrown
exceptions, `setTimeout` timing) are modeled explicitly: network calls
become elements of an event trace, fallible steps take a boolean oracle
saying whether they throw, pass transforms become functions on the
snapshot, and promise-resolution instants become natural numbers.
-/

namespace Tedium

/-- Push disposition of one repository, from `PushStatus` in
`element-repo.ts`. -/
inductive PushStatus where
  | unpushed
  | succeeded
  | failed
  | denied
deriving DecidableEq, Repr

/-- The per-repository snapshot, from the `ElementRepo` class in
`element-repo.ts`. The constructor-initialized handles (`ghRepo`, `repo`,
`analyzer`) carry no state the engine branches on and are omitted;
`needsReviewRaw` is the private `_needsReview` backing field, read and
written only through the accessors below. -/
structure ElementRepo where
  dir : String
  dirty : Bool
  needsReviewRaw : Bool
  pushStatus : PushStatus
deriving DecidableEq, Repr

/-- The `ElementRepo` constructor: `dirty`, `_needsReview` and
`pushStatus` start at their declared initializers `false`, `false`,
`PushStatus.unpushed`. -/
def mkElementRepo (dir : String) : ElementRepo :=
  { dir := dir, dirty := false, needsReviewRaw := false,
    pushStatus := PushStatus.unpushed }

/-- Getter `needsReview`: `get needsReview() { return this._needsReview; }`. -/
def needsReview (e : ElementRepo) : Bool :=
  e.needsReviewRaw

/-- The `needsReview` setter:
`set needsReview(value) { if (this._needsReview === false) { this._needsReview = value; } }`. -/
def setNeedsReview (e : ElementRepo) (value : Bool) : ElementRepo :=
  if e.needsReviewRaw = false then { e with needsReviewRaw := value } else e

theorem setNeedsReview_eq_or (e : ElementRepo) (v : Bool) :
    needsReview (setNeedsReview e v) = (needsReview e || v) := by
  cases h : e.needsReviewRaw <;>
    simp [needsReview, setNeedsReview, h]

theorem foldl_setNeedsReview (e : ElementRepo) (ws : List Bool) :
    needsReview (ws.foldl setNeedsReview e) = (needsReview e || ws.any id) := by
  induction ws generalizing e with
  | nil => simp
  | cons w ws ih =>
      simp only [List.foldl_cons, List.any_cons, ih, setNeedsReview_eq_or]
      cases needsReview e <;> cases w <;> simp

/-- C2: for every snapshot whose `needsReview` starts at the
constructor's initial value `false`, the value after any finite sequence
of writes through the setter equals the logical OR of all written values;
in general the final value is the initial value OR-ed with all writes, so
a later `false` write never undoes an earlier `true` — in particular
`set(true); set(false)` leaves the value `true`. -/
theorem needsReview_latch (dir : String) (ws : List Bool) (e : ElementRepo) :
    needsReview (ws.foldl setNeedsReview (mkElementRepo dir)) = ws.any id ∧
    needsReview (ws.foldl setNeedsReview e) = (needsReview e || ws.any id) ∧
    needsReview ([true, false].foldl setNeedsReview (mkElementRepo dir)) = true := by
  refine ⟨?_, foldl_setNeedsReview e ws, ?_⟩
  · rw [foldl_setNeedsReview]
    simp [mkElementRepo, needsReview]
  · simp [setNeedsReview, needsReview, mkElementRepo]

/-- Outcome of `makeCommit` from `cleanup-passes/util.ts`: the snapshot
after the call, whether the underlying `createCommitOnHead` was reached,
and whether the call threw (it throws exactly when the commit operation
itself throws, modeled by the `commitOk` oracle). -/
structure CommitOutcome where
  element : ElementRepo
  commitAttempted : Bool
  thrown : Bool
deriving DecidableEq, Repr

/-- Function `makeCommit` from `cleanup-passes/util.ts`: assigns
`element.dirty = true`, then awaits
`element.repo.createCommitOnHead(files, sig, sig, commitMessage)`.
The assignment happens before the commit is attempted, so the snapshot
given to the commit operation — and the snapshot left behind when the
commit throws — already has `dirty = true`. The files and message do not
influence the snapshot. -/
def makeCommit (element : ElementRepo) (_files : List String)
    (_commitMessage : String) (commitOk : Bool) : CommitOutcome :=
  let element := { element with dirty := true }
  { element := element, commitAttempted := true, thrown := !commitOk }

/-- C9: every call to `makeCommit` sets `dirty` to `true`, and does so
before attempting the version-control commit: the resulting snapshot has
`dirty = true` for every outcome of the commit operation, including the
one where it throws. -/
theorem makeCommit_sets_dirty (element : ElementRepo) (files : List String)
    (message : String) (commitOk : Bool) :
    (makeCommit element files message commitOk).element.dirty = true ∧
    (makeCommit element files message commitOk).commitAttempted = true ∧
    (makeCommit element files message false).thrown = true ∧
    (makeCommit element files message false).element.dirty = true := by
  refine ⟨rfl, rfl, rfl, rfl⟩

/-- A repository descriptor as returned by the hosting API; `getRepos`
deduplicates on the `name` field. -/
structure Repo where
  name : String
  cloneUrl : String
deriving DecidableEq, Repr

/-- The deduplication loop at the end of `getRepos` in `tedium.ts`:
walk the fetched list; skip a repo whose `name` is already in the
`repoIds` set, otherwise record the name and append the repo. -/
def dedupeRepos (repoIds : List String) : List Repo → List Repo
  | [] => []
  | r :: rest =>
      if repoIds.contains r.name then dedupeRepos repoIds rest
      else r :: dedupeRepos (r.name :: repoIds) rest

/-- Function `getRepos` from `tedium.ts`, with the network fetch abstracted: the
pages returned by the hosting API (plus the always-included repos) arrive
as the `fetched` list, in fetch order; the function returns that list
deduplicated by repository name with an initially empty `repoIds` set. -/
def getRepos (fetched : List Repo) : List Repo :=
  dedupeRepos [] fetched

theorem dedupeRepos_sublist (seen : List String) (rs : List Repo) :
    (dedupeRepos seen rs).Sublist rs := by
  induction rs generalizing seen with
  | nil => simp [dedupeRepos]
  | cons r rest ih =>
      by_cases h : seen.contains r.name
      · simp only [dedupeRepos, h, if_pos]
        exact (ih seen).cons r
      · simp only [dedupeRepos, h, if_neg, Bool.false_eq_true, not_false_iff]
        exact (ih (r.name :: seen)).cons₂ r

theorem dedupeRepos_not_seen (seen : List String) (rs : List Repo) :
    ∀ r ∈ dedupeRepos seen rs, ¬ seen.contains r.name := by
  induction rs generalizing seen with
  | nil => simp [dedupeRepos]
  | cons r rest ih =>
      intro x hx
      by_cases h : seen.contains r.name
      · rw [dedupeRepos, if_pos h] at hx
        exact ih seen x hx
      · rw [dedupeRepos, if_neg h] at hx
        rcases List.mem_cons.mp hx with hx | hx
        · subst hx; exact h
        · intro hcon
          exact ih (r.name :: seen) x hx
            (by simp only [List.contains_cons, hcon, Bool.or_true])

theorem dedupeRepos_nodup (seen : List String) (rs : List Repo) :
    ((dedupeRepos seen rs).map Repo.name).Nodup := by
  induction rs generalizing seen with
  | nil => simp [dedupeRepos]
  | cons r rest ih =>
      by_cases h : seen.contains r.name
      · rw [dedupeRepos, if_pos h]; exact ih seen
      · rw [dedupeRepos, if_neg h]
        simp only [List.map_cons, List.nodup_cons]
        constructor
        · intro hmem
          rcases List.mem_map.mp hmem with ⟨x, hx, hname⟩
          have := dedupeRepos_not_seen (r.name :: seen) rest x hx
          exact this (by simp [List.contains_cons, hname])
        · exact ih (r.name :: seen)

theorem dedupeRepos_find? (seen : List String) (rs : List Repo) (n : String)
    (hn : ¬ seen.contains n) :
    (dedupeRepos seen rs).find? (fun r => r.name == n) =
      rs.find? (fun r => r.name == n) := by
  induction rs generalizing seen with
  | nil => simp [dedupeRepos]
  | cons r rest ih =>
      by_cases h : seen.contains r.name
      · rw [dedupeRepos, if_pos h]
        have hne : (r.name == n) = false := by
          cases heq : r.name == n
          · rfl
          · exact absurd (by rw [← eq_of_beq heq]; exact h) hn
        rw [List.find?_cons, hne]
        exact ih seen hn
      · rw [dedupeRepos, if_neg h]
        cases heq : r.name == n
        · rw [List.find?_cons, heq, List.find?_cons, heq]
          apply ih
          simp only [List.contains_cons]
          intro hcon
          rcases (Bool.or_eq_true _ _).mp hcon with hc | hc
          · rw [eq_of_beq hc] at heq
            simp at heq
          · exact hn hc
        · rw [List.find?_cons, heq, List.find?_cons, heq]

/-- C10: `getRepos` returns a list whose repository names are pairwise
distinct; the result is a subsequence of the fetched list (so the
relative order of kept entries is fetch order), and for every name the
kept entry is exactly the first fetched repo bearing that name. -/
theorem getRepos_dedupes (fetched : List Repo) :
    ((getRepos fetched).map Repo.name).Nodup ∧
    (getRepos fetched).Sublist fetched ∧
    ∀ n : String, (getRepos fetched).find? (fun r => r.name == n) =
      fetched.find? (fun r => r.name == n) := by
  refine ⟨dedupeRepos_nodup [] fetched, dedupeRepos_sublist [] fetched, ?_⟩
  intro n
  exact dedupeRepos_find? [] fetched n (by simp)

/-- The module-level counters of `tedium.ts`: `elementsPushed` and
`pushesDenied`. -/
structure GovernorState where
  elementsPushed : Nat
  pushesDenied : Nat
deriving DecidableEq, Repr

/-- Function `pushIsAllowed` from `tedium.ts`: if `elementsPushed < opts.max_changes`
then increment `elementsPushed` and return `true`, otherwise increment
`pushesDenied` and return `false`. -/
def pushIsAllowed (maxChanges : Nat) (s : GovernorState) :
    Bool × GovernorState :=
  if s.elementsPushed < maxChanges then
    (true, { s with elementsPushed := s.elementsPushed + 1 })
  else
    (false, { s with pushesDenied := s.pushesDenied + 1 })

/-- The sequence of answers produced by `k` successive calls to
`pushIsAllowed`, together with the final counter state. -/
def gateCalls (maxChanges : Nat) (s : GovernorState) :
    Nat → List Bool × GovernorState
  | 0 => ([], s)
  | k + 1 =>
      let (b, s1) := pushIsAllowed maxChanges s
      let (bs, s2) := gateCalls maxChanges s1 k
      (b :: bs, s2)

theorem gateCalls_answers (maxChanges : Nat) (d : Nat) :
    ∀ (k c : Nat), (gateCalls maxChanges ⟨c, d⟩ k).1 =
      (List.range k).map (fun i => decide (c + i < maxChanges)) := by
  intro k
  induction k generalizing d with
  | zero => intro c; simp [gateCalls]
  | succ k ih =>
      intro c
      rw [List.range_succ_eq_map]
      by_cases h : c < maxChanges
      · simp only [gateCalls, pushIsAllowed, if_pos h, ih]
        simp only [List.map_cons, List.map_map]
        congr 1
        · simp [h]
        · apply List.map_congr_left
          intro i _
          simp [Function.comp]
          omega
      · have hall : ∀ i, (c + i < maxChanges) = False := by
          intro i; simp only [eq_iff_iff, iff_false]; omega
        simp only [gateCalls, pushIsAllowed, if_neg h, ih]
        simp only [List.map_cons, List.map_map]
        congr 1
        · simp [h]
        · apply List.map_congr_left
          intro i _
          simp [Function.comp]
          omega

/-- One network operation issued against the remote (git push over the
`origin` remote, pull-request creation, issue edit). -/
inductive NetOp where
  | push (localBranch remoteBranch : String)
  | createPR (title head base : String)
  | editIssue (assignee : String) (labels : List String)
deriving DecidableEq, Repr

/-- Throw oracles for the fallible steps of a push: whether the
`remote.push`, the `pullRequests.create` and the `issues.edit` network
calls succeed. -/
structure PushOracle where
  pushOk : Bool
  createOk : Bool
  editOk : Bool
deriving DecidableEq, Repr

/-- Function `createPullRequest` from `tedium.ts`: after a rate-limit delay,
create a PR titled `Automatic cleanup!` from `head` into `base`, then
edit the resulting issue to set the assignee and the `autogenerated`
label. Returns the trace of attempted network operations and whether the
call threw (it throws as soon as one of the two API calls fails). -/
def createPullRequest (head base assignee : String) (createOk editOk : Bool) :
    List NetOp × Bool :=
  if createOk = false then ([NetOp.createPR "Automatic cleanup!" head base], true)
  else ([NetOp.createPR "Automatic cleanup!" head base,
         NetOp.editIssue assignee ["autogenerated"]], editOk = false)

/-- Result of `pushChanges`: the snapshot (with its final
`pushStatus`), the governor counters, the trace of attempted network
operations, and whether the call threw. -/
structure PushOutcome where
  element : ElementRepo
  gov : GovernorState
  ops : List NetOp
  thrown : Bool
deriving DecidableEq, Repr

/-- Function `pushChanges` from `tedium.ts`: return immediately if the element is
not dirty; ask `pushIsAllowed` for a slot and mark the element `denied`
if refused; otherwise push the local branch to `master` — or, when
`needsReview` is set, to a remote branch of the same local name followed
by `createPullRequest(element, localBranchName, 'master', assignee)` —
marking the element `failed` and rethrowing if any step throws, and
`succeeded` otherwise. -/
def pushChanges (maxChanges : Nat) (gov : GovernorState)
    (element : ElementRepo) (localBranchName assignee : String)
    (o : PushOracle) : PushOutcome :=
  if element.dirty = false then
    { element := element, gov := gov, ops := [], thrown := false }
  else
    match pushIsAllowed maxChanges gov with
    | (false, gov1) =>
        { element := { element with pushStatus := PushStatus.denied },
          gov := gov1, ops := [], thrown := false }
    | (true, gov1) =>
        let remoteBranchName :=
          if needsReview element then localBranchName else "master"
        if o.pushOk = false then
          { element := { element with pushStatus := PushStatus.failed },
            gov := gov1, ops := [NetOp.push localBranchName remoteBranchName],
            thrown := true }
        else if needsReview element then
          match createPullRequest localBranchName "master" assignee
              o.createOk o.editOk with
          | (prOps, true) =>
              { element := { element with pushStatus := PushStatus.failed },
                gov := gov1,
                ops := NetOp.push localBranchName remoteBranchName :: prOps,
                thrown := true }
          | (prOps, false) =>
              { element := { element with pushStatus := PushStatus.succeeded },
                gov := gov1,
                ops := NetOp.push localBranchName remoteBranchName :: prOps,
                thrown := false }
        else
          { element := { element with pushStatus := PushStatus.succeeded },
            gov := gov1, ops := [NetOp.push localBranchName remoteBranchName],
            thrown := false }

/-- C3: the push routing decision of `pushChanges`. A non-dirty element
is returned untouched (disposition left as it was, no network
operation). A dirty element that is granted a slot and has
`needsReview` set gets its local branch pushed to a remote branch of the
same name followed by a pull request into the target branch `master`
that is created, assigned and labeled — `succeeded` when every step
works, `failed` (with the error rethrown) when the push, the PR creation
or the issue edit throws. A dirty element granted a slot without
`needsReview` gets its local branch pushed directly onto `master` —
`succeeded`, or `failed` when the push throws. -/
theorem pushChanges_routing (maxChanges : Nat) (gov : GovernorState)
    (e : ElementRepo) (branch assignee : String) (o : PushOracle) :
    (e.dirty = false →
      pushChanges maxChanges gov e branch assignee o =
        { element := e, gov := gov, ops := [], thrown := false }) ∧
    (e.dirty = true → gov.elementsPushed < maxChanges →
      needsReview e = true →
      (pushChanges maxChanges gov e branch assignee o).ops =
        NetOp.push branch branch ::
          (createPullRequest branch "master" assignee o.createOk o.editOk).1.take
            (if o.pushOk then 2 else 0) ∧
      ((o.pushOk && o.createOk && o.editOk) = true →
        (pushChanges maxChanges gov e branch assignee o).element.pushStatus =
            PushStatus.succeeded ∧
        (pushChanges maxChanges gov e branch assignee o).ops =
          [NetOp.push branch branch,
           NetOp.createPR "Automatic cleanup!" branch "master",
           NetOp.editIssue assignee ["autogenerated"]] ∧
        (pushChanges maxChanges gov e branch assignee o).thrown = false) ∧
      ((o.pushOk && o.createOk && o.editOk) = false →
        (pushChanges maxChanges gov e branch assignee o).element.pushStatus =
            PushStatus.failed ∧
        (pushChanges maxChanges gov e branch assignee o).thrown = true)) ∧
    (e.dirty = true → gov.elementsPushed < maxChanges →
      needsReview e = false →
      (pushChanges maxChanges gov e branch assignee o).ops =
        [NetOp.push branch "master"] ∧
      (o.pushOk = true →
        (pushChanges maxChanges gov e branch assignee o).element.pushStatus =
          PushStatus.succeeded ∧
        (pushChanges maxChanges gov e branch assignee o).thrown = false) ∧
      (o.pushOk = false →
        (pushChanges maxChanges gov e branch assignee o).element.pushStatus =
          PushStatus.failed ∧
        (pushChanges maxChanges gov e branch assignee o).thrown = true)) := by
  refine ⟨?_, ?_, ?_⟩
  · intro hd
    simp [pushChanges, hd]
  · intro hd hslot hr
    cases hp : o.pushOk <;> cases hc : o.createOk <;> cases he : o.editOk <;>
      simp [pushChanges, hd, hr, pushIsAllowed, hslot, createPullRequest,
        hp, hc, he]
  · intro hd hslot hr
    cases hp : o.pushOk <;>
      simp [pushChanges, hd, hr, pushIsAllowed, hslot, hp]

/-- A witness run of `pushChanges_routing`: a dirty, review-needing
element with one free slot and fully working network gets exactly the
push + PR-create + issue-edit trace and the `succeeded` disposition. -/
theorem pushChanges_routing_witness :
    (pushChanges 1 ⟨0, 0⟩
        { dir := "repos/paper-input", dirty := true, needsReviewRaw := true,
          pushStatus := PushStatus.unpushed }
        "auto-cleanup" "rictic" ⟨true, true, true⟩).element.pushStatus =
      PushStatus.succeeded := by
  have h := pushChanges_routing 1 ⟨0, 0⟩
    { dir := "repos/paper-input", dirty := true, needsReviewRaw := true,
      pushStatus := PushStatus.unpushed }
    "auto-cleanup" "rictic" ⟨true, true, true⟩
  exact (h.2.1 rfl (by decide) rfl).2.1 rfl |>.1

/-- An element whose final disposition records a push attempt
(`succeeded` or `failed`). -/
def wasAttempted (e : ElementRepo) : Bool :=
  e.pushStatus == PushStatus.succeeded || e.pushStatus == PushStatus.failed

/-- An element whose final disposition is `denied`. -/
def wasDenied (e : ElementRepo) : Bool :=
  e.pushStatus == PushStatus.denied

/-- A sequence of repositories reaching the push decision: each one goes
through `pushChanges` in turn, threading the governor counters. Returns
the elements with their final dispositions and the final counters. -/
def processAll (maxChanges : Nat) (gov : GovernorState)
    (branch assignee : String) :
    List (ElementRepo × PushOracle) → List ElementRepo × GovernorState
  | [] => ([], gov)
  | (e, o) :: rest =>
      let out := pushChanges maxChanges gov e branch assignee o
      let (res, gov2) := processAll maxChanges out.gov branch assignee rest
      (out.element :: res, gov2)

theorem pushChanges_dirty_allowed (N c d : Nat) (e : ElementRepo)
    (b a : String) (o : PushOracle) (hd : e.dirty = true) (h : c < N) :
    wasAttempted (pushChanges N ⟨c, d⟩ e b a o).element = true ∧
    (pushChanges N ⟨c, d⟩ e b a o).gov = ⟨c + 1, d⟩ := by
  cases hp : o.pushOk <;> cases hcr : o.createOk <;> cases he : o.editOk <;>
    cases hr : needsReview e <;>
      simp [pushChanges, hd, pushIsAllowed, h, createPullRequest,
        wasAttempted, hp, hcr, he, hr]

theorem pushChanges_dirty_denied (N c d : Nat) (e : ElementRepo)
    (b a : String) (o : PushOracle) (hd : e.dirty = true) (h : ¬ c < N) :
    wasDenied (pushChanges N ⟨c, d⟩ e b a o).element = true ∧
    wasAttempted (pushChanges N ⟨c, d⟩ e b a o).element = false ∧
    (pushChanges N ⟨c, d⟩ e b a o).gov = ⟨c, d + 1⟩ := by
  simp [pushChanges, hd, pushIsAllowed, h, wasDenied, wasAttempted]

theorem wasAttempted_not_denied (e : ElementRepo)
    (h : wasAttempted e = true) : wasDenied e = false := by
  unfold wasAttempted at h
  unfold wasDenied
  rcases Bool.or_eq_true _ _ |>.mp h with h1 | h1 <;>
    simp [eq_of_beq h1]

theorem processAll_counts (N : Nat) (b a : String) :
    ∀ (items : List (ElementRepo × PushOracle)) (c d : Nat),
      (∀ p ∈ items, p.1.dirty = true) →
      ((processAll N ⟨c, d⟩ b a items).1.countP wasAttempted =
          min (N - c) items.length ∧
       (processAll N ⟨c, d⟩ b a items).1.countP wasDenied =
          items.length - min (N - c) items.length) := by
  intro items
  induction items with
  | nil => intro c d _; simp [processAll]
  | cons p rest ih =>
      intro c d hdirty
      obtain ⟨e, o⟩ := p
      have hd : e.dirty = true := hdirty (e, o) (List.mem_cons_self _ _)
      have hrest : ∀ q ∈ rest, q.1.dirty = true :=
        fun q hq => hdirty q (List.mem_cons_of_mem _ hq)
      by_cases h : c < N
      · obtain ⟨hatt, hgov⟩ := pushChanges_dirty_allowed N c d e b a o hd h
        have hden := wasAttempted_not_denied _ hatt
        obtain ⟨ih1, ih2⟩ := ih (c + 1) d hrest
        simp [processAll, hgov, List.countP_cons, hatt, hden, ih1, ih2]
        constructor <;> omega
      · obtain ⟨hden, hatt, hgov⟩ := pushChanges_dirty_denied N c d e b a o hd h
        obtain ⟨ih1, ih2⟩ := ih c (d + 1) hrest
        simp [processAll, hgov, List.countP_cons, hatt, hden, ih1, ih2]
        constructor <;> omega

/-- C1: the push gate and the run-wide ceiling. `pushIsAllowed`
increments the pushed counter exactly on an `allowed` answer; starting
from zeroed counters the answers of any number of successive calls are
`allowed` for precisely the first `N` calls and `denied` afterwards; and
across any sequence of `M ≥ N` dirty repositories reaching the push
decision — in any order — exactly `N` of them end with a
succeeded-or-failed push attempt and exactly `M - N` end `denied`. -/
theorem governor_ceiling (N : Nat) (b a : String)
    (items : List (ElementRepo × PushOracle))
    (hdirty : ∀ p ∈ items, p.1.dirty = true) (hM : N ≤ items.length) :
    (∀ s : GovernorState, (pushIsAllowed N s).1 = true →
      (pushIsAllowed N s).2.elementsPushed = s.elementsPushed + 1) ∧
    (∀ s : GovernorState, (pushIsAllowed N s).1 = false →
      (pushIsAllowed N s).2.elementsPushed = s.elementsPushed) ∧
    (∀ M : Nat, (gateCalls N ⟨0, 0⟩ M).1 =
      (List.range M).map (fun i => decide (i < N))) ∧
    (processAll N ⟨0, 0⟩ b a items).1.countP wasAttempted = N ∧
    (processAll N ⟨0, 0⟩ b a items).1.countP wasDenied = items.length - N := by
  refine ⟨?_, ?_, ?_, ?_, ?_⟩
  · intro s hs
    by_cases h : s.elementsPushed < N
    · simp [pushIsAllowed, h]
    · simp [pushIsAllowed, h] at hs
  · intro s hs
    by_cases h : s.elementsPushed < N
    · simp [pushIsAllowed, h] at hs
    · simp [pushIsAllowed, h]
  · intro M
    rw [gateCalls_answers N 0 M 0]
    apply List.map_congr_left
    intro i _
    simp
  · have := (processAll_counts N b a items 0 0 hdirty).1
    simpa [Nat.min_eq_left hM] using this
  · have := (processAll_counts N b a items 0 0 hdirty).2
    simpa [Nat.min_eq_left hM] using this

/-- A witness run of `governor_ceiling`: three dirty repositories with a
ceiling of two give two attempted pushes and one denial. -/
theorem governor_ceiling_witness :
    (processAll 2 ⟨0, 0⟩ "auto-cleanup" "rictic"
        [({ dir := "repos/a", dirty := true, needsReviewRaw := false,
            pushStatus := PushStatus.unpushed }, ⟨true, true, true⟩),
         ({ dir := "repos/b", dirty := true, needsReviewRaw := true,
            pushStatus := PushStatus.unpushed }, ⟨false, true, true⟩),
         ({ dir := "repos/c", dirty := true, needsReviewRaw := false,
            pushStatus := PushStatus.unpushed }, ⟨true, true, true⟩)]).1.countP
      wasDenied = 1 := by
  have h := governor_ceiling 2 "auto-cleanup" "rictic"
    [({ dir := "repos/a", dirty := true, needsReviewRaw := false,
        pushStatus := PushStatus.unpushed }, ⟨true, true, true⟩),
     ({ dir := "repos/b", dirty := true, needsReviewRaw := true,
        pushStatus := PushStatus.unpushed }, ⟨false, true, true⟩),
     ({ dir := "repos/c", dirty := true, needsReviewRaw := false,
        pushStatus := PushStatus.unpushed }, ⟨true, true, true⟩)]
    (by decide) (by decide)
  exact h.2.2.2.2

/-- A cleanup pass descriptor from `cleanup-pass.ts`: a name, the
default-enablement flag, and the async transform, modeled as a function
on the snapshot. -/
structure CleanupPass where
  name : String
  runsByDefault : Bool
  pass : ElementRepo → ElementRepo

/-- Function `register` from `cleanup-pass.ts`: `passes.push(p)` — append the
descriptor to the module-level `passes` array. -/
def register (passes : List CleanupPass) (p : CleanupPass) :
    List CleanupPass :=
  passes ++ [p]

/-- Function `getPasses` from `cleanup-pass.ts`: `passes.slice()` — a defensive
copy of the registration list, which as a value equals the list itself. -/
def getPasses (passes : List CleanupPass) : List CleanupPass :=
  passes

/-- A concrete descriptor named `travis`. -/
def dupPassA : CleanupPass :=
  { name := "travis", runsByDefault := true, pass := fun e => e }

/-- A second, different descriptor that reuses the name `travis`. -/
def dupPassB : CleanupPass :=
  { name := "travis", runsByDefault := false,
    pass := fun e => setNeedsReview e true }

/-- C7 counterexample: `register` does not reject a descriptor whose
name equals an already-registered pass's name. Registering `dupPassB`
after `dupPassA` — both named `travis` — succeeds, and the registry then
holds both descriptors. -/
theorem register_accepts_duplicate_name :
    dupPassA.name = dupPassB.name ∧
    getPasses (register (register [] dupPassA) dupPassB) =
      [dupPassA, dupPassB] ∧
    (getPasses (register (register [] dupPassA) dupPassB)).length = 2 :=
  ⟨rfl, rfl, rfl⟩

/-- C7 amended: `register` appends the descriptor unconditionally, with
no duplicate-name check and no failure path; after registering a pass
whose name collides with an already-registered one, both descriptors
remain in the registry in registration order and `getPasses` returns
them all. -/
theorem register_appends_unconditionally (ps : List CleanupPass)
    (p q : CleanupPass) (hq : q ∈ ps) (_hname : q.name = p.name) :
    getPasses (register ps p) = ps ++ [p] ∧
    p ∈ getPasses (register ps p) ∧ q ∈ getPasses (register ps p) := by
  refine ⟨rfl, ?_, ?_⟩
  · simp [getPasses, register]
  · simp [getPasses, register, hq]

/-- A witness run of `register_appends_unconditionally` at the two
concrete same-named descriptors. -/
theorem register_appends_unconditionally_witness :
    getPasses (register [dupPassA] dupPassB) = [dupPassA] ++ [dupPassB] :=
  (register_appends_unconditionally [dupPassA] dupPassB dupPassA
    (List.mem_singleton.mpr rfl) rfl).1

/-- Per-pass configuration from `config.json`: an optional blacklist of
repository directory identifiers. -/
structure PassConfig where
  blacklist : Option (List String)
deriving DecidableEq, Repr

/-- The `passes` section of `config.json`: a mapping from pass name to
its `PassConfig`. -/
abbrev CleanupConfig := List (String × PassConfig)

/-- The lookup `config[step.name]` in `cleanup.ts`. -/
def lookupConfig (config : CleanupConfig) (name : String) :
    Option PassConfig :=
  (config.find? (fun kv => kv.1 == name)).map Prod.snd

/-- The skip condition of the runner loop:
`stepConfig.blacklist && stepConfig.blacklist.indexOf(element.dir) !== -1`,
where `stepConfig` is `config[step.name] || {}`. -/
def passBlacklisted (config : CleanupConfig) (name dir : String) : Bool :=
  match lookupConfig config name with
  | some cfg =>
      match cfg.blacklist with
      | some bl => bl.contains dir
      | none => false
  | none => false

/-- Function `cleanup` from `cleanup.ts`: iterate the registered passes in
registration order; skip a pass whose `runsByDefault` is false, skip a
pass whose configured blacklist contains the element's directory,
otherwise await the pass's transform on the snapshot. Returns the final
snapshot together with the trace of pass names actually invoked, in
invocation order. -/
def cleanup (registry : List CleanupPass) (config : CleanupConfig)
    (element : ElementRepo) : ElementRepo × List String :=
  match registry with
  | [] => (element, [])
  | step :: rest =>
      if step.runsByDefault = false then cleanup rest config element
      else if passBlacklisted config step.name element.dir then
        cleanup rest config element
      else
        ((cleanup rest config (step.pass element)).1,
         step.name :: (cleanup rest config (step.pass element)).2)

theorem cleanup_nil (config : CleanupConfig) (e : ElementRepo) :
    cleanup [] config e = (e, []) := rfl

theorem cleanup_cons (step : CleanupPass) (rest : List CleanupPass)
    (config : CleanupConfig) (e : ElementRepo) :
    cleanup (step :: rest) config e =
      if step.runsByDefault = false then cleanup rest config e
      else if passBlacklisted config step.name e.dir then
        cleanup rest config e
      else
        ((cleanup rest config (step.pass e)).1,
         step.name :: (cleanup rest config (step.pass e)).2) := rfl

theorem cleanup_trace_mem (config : CleanupConfig) :
    ∀ (registry : List CleanupPass) (e : ElementRepo) (n : String),
      (∀ q ∈ registry, ∀ x, (q.pass x).dir = x.dir) →
      n ∈ (cleanup registry config e).2 →
      ∃ q ∈ registry, q.name = n ∧ q.runsByDefault = true ∧
        passBlacklisted config n e.dir = false := by
  intro registry
  induction registry with
  | nil => intro e n _ hmem; simp [cleanup_nil] at hmem
  | cons step rest ih =>
      intro e n hdir hmem
      have hdrest : ∀ q ∈ rest, ∀ x, (q.pass x).dir = x.dir :=
        fun q hq => hdir q (List.mem_cons_of_mem _ hq)
      by_cases hrd : step.runsByDefault = false
      · rw [cleanup_cons, if_pos hrd] at hmem
        obtain ⟨q, hq, h⟩ := ih e n hdrest hmem
        exact ⟨q, List.mem_cons_of_mem _ hq, h⟩
      · by_cases hbl : passBlacklisted config step.name e.dir = true
        · rw [cleanup_cons, if_neg hrd, if_pos hbl] at hmem
          obtain ⟨q, hq, h⟩ := ih e n hdrest hmem
          exact ⟨q, List.mem_cons_of_mem _ hq, h⟩
        · rw [cleanup_cons, if_neg hrd, if_neg hbl] at hmem
          simp only [List.mem_cons] at hmem
          rcases hmem with hn | hn
          · subst hn
            exact ⟨step, List.mem_cons_self _ _, rfl,
              Bool.not_eq_false _ |>.mp hrd,
              Bool.not_eq_true _ |>.mp hbl⟩
          · obtain ⟨q, hq, hqn, hqd, hqbl⟩ := ih (step.pass e) n hdrest hn
            rw [hdir step (List.mem_cons_self _ _) e] at hqbl
            exact ⟨q, List.mem_cons_of_mem _ hq, hqn, hqd, hqbl⟩

theorem cleanup_skip_blacklisted (config : CleanupConfig) (p : CleanupPass) :
    ∀ (pre : List CleanupPass) (post : List CleanupPass) (x : ElementRepo),
      (∀ q ∈ pre, ∀ e, (q.pass e).dir = e.dir) →
      passBlacklisted config p.name x.dir = true →
      cleanup (pre ++ p :: post) config x = cleanup (pre ++ post) config x := by
  intro pre
  induction pre with
  | nil =>
      intro post x _ hbl
      rw [List.nil_append, List.nil_append, cleanup_cons]
      by_cases hrd : p.runsByDefault = false
      · rw [if_pos hrd]
      · rw [if_neg hrd, if_pos hbl]
  | cons h pre ih =>
      intro post x hdir hbl
      have hdpre : ∀ q ∈ pre, ∀ e, (q.pass e).dir = e.dir :=
        fun q hq => hdir q (List.mem_cons_of_mem _ hq)
      rw [List.cons_append, List.cons_append, cleanup_cons, cleanup_cons]
      by_cases hrd : h.runsByDefault = false
      · rw [if_pos hrd, if_pos hrd]
        exact ih post x hdpre hbl
      · by_cases hb : passBlacklisted config h.name x.dir = true
        · rw [if_neg hrd, if_neg hrd, if_pos hb, if_pos hb]
          exact ih post x hdpre hbl
        · rw [if_neg hrd, if_neg hrd, if_neg hb, if_neg hb]
          have hx : (h.pass x).dir = x.dir := hdir h (List.mem_cons_self _ _) x
          rw [ih post (h.pass x) hdpre (by rw [hx]; exact hbl)]

theorem cleanup_runs_nonblacklisted (config : CleanupConfig)
    (p : CleanupPass) :
    ∀ (pre : List CleanupPass) (post : List CleanupPass) (y : ElementRepo),
      (∀ q ∈ pre, ∀ e, (q.pass e).dir = e.dir) →
      p.runsByDefault = true →
      passBlacklisted config p.name y.dir = false →
      p.name ∈ (cleanup (pre ++ p :: post) config y).2 := by
  intro pre
  induction pre with
  | nil =>
      intro post y _ hrd hbl
      rw [List.nil_append, cleanup_cons, if_neg (by simp [hrd]),
        if_neg (by simp [hbl])]
      exact List.mem_cons_self _ _
  | cons h pre ih =>
      intro post y hdir hrd hbl
      have hdpre : ∀ q ∈ pre, ∀ e, (q.pass e).dir = e.dir :=
        fun q hq => hdir q (List.mem_cons_of_mem _ hq)
      rw [List.cons_append, cleanup_cons]
      by_cases hhrd : h.runsByDefault = false
      · rw [if_pos hhrd]
        exact ih post y hdpre hrd hbl
      · by_cases hb : passBlacklisted config h.name y.dir = true
        · rw [if_neg hhrd, if_pos hb]
          exact ih post y hdpre hrd hbl
        · rw [if_neg hhrd, if_neg hb]
          have hy : (h.pass y).dir = y.dir := hdir h (List.mem_cons_self _ _) y
          exact List.mem_cons_of_mem _
            (ih post (h.pass y) hdpre hrd (by rw [hy]; exact hbl))

/-- C6: blacklist exclusion is exact. If pass `p`'s configured blacklist
contains `x.dir` then (a) no pass named `p.name` is ever invoked on `x`
— `p.name` is absent from the invocation trace; (b) the whole run on `x`
is exactly what it would have been with `p` removed from the registry
(`x`'s snapshot is left unchanged by `p`, whatever `p`'s transform would
have done); and (c) for every repository whose directory is not in that
blacklist, a default-enabled `p` still runs — the blacklist entry for
`x` has no effect on any other repository. The hypothesis is that the
registered transforms never reassign the snapshot's `dir` field, which
no pass in the repository does (it is set only in the `ElementRepo`
constructor). -/
theorem cleanup_blacklist_exclusion (config : CleanupConfig)
    (pre post : List CleanupPass) (p : CleanupPass) (x : ElementRepo)
    (hdir : ∀ q ∈ pre ++ p :: post, ∀ e, (q.pass e).dir = e.dir)
    (hbl : passBlacklisted config p.name x.dir = true) :
    p.name ∉ (cleanup (pre ++ p :: post) config x).2 ∧
    cleanup (pre ++ p :: post) config x = cleanup (pre ++ post) config x ∧
    (∀ y : ElementRepo, passBlacklisted config p.name y.dir = false →
      p.runsByDefault = true →
      p.name ∈ (cleanup (pre ++ p :: post) config y).2) := by
  have hdpre : ∀ q ∈ pre, ∀ e, (q.pass e).dir = e.dir :=
    fun q hq => hdir q (List.mem_append_left _ hq)
  refine ⟨?_, ?_, ?_⟩
  · intro hmem
    obtain ⟨q, _, _, _, hqbl⟩ :=
      cleanup_trace_mem config (pre ++ p :: post) x p.name hdir hmem
    rw [hbl] at hqbl
    exact absurd hqbl (by simp)
  · exact cleanup_skip_blacklisted config p pre post x hdpre hbl
  · intro y hy hrd
    exact cleanup_runs_nonblacklisted config p pre post y hdpre hrd hy

/-- A concrete pass used in witnesses: marks the snapshot dirty. -/
def witnessPass : CleanupPass :=
  { name := "bower", runsByDefault := true,
    pass := fun e => { e with dirty := true } }

/-- A witness run of `cleanup_blacklist_exclusion`: with `bower`
blacklisted for `repos/x`, running the one-pass registry over the
`repos/x` snapshot invokes nothing. -/
theorem cleanup_blacklist_exclusion_witness :
    "bower" ∉ (cleanup ([] ++ witnessPass :: []) [("bower",
      { blacklist := some ["repos/x"] })] (mkElementRepo "repos/x")).2 :=
  (cleanup_blacklist_exclusion
    [("bower", { blacklist := some ["repos/x"] })] [] [] witnessPass
    (mkElementRepo "repos/x")
    (by
      intro q hq e
      have : q = witnessPass := by simpa using hq
      subst this
      rfl)
    (by decide)).1

/-- Modelled from the spec: the three-argument `cleanup` that
`tedium.ts` imports from `./cleanup` (the variant taking the caller's
explicit `passesToRun` list) is not under `src/`; only its caller
`_main` and the two-argument ancestor are. Per the spec, the runner
receives "an ordered list of pass names to execute (explicit list if the
caller specified one; otherwise all passes with `runsByDefault == true`,
in registration order)". This resolves that list against the registry:
an explicit list maps each requested name, in the given order, to the
registered descriptor of that name; no list selects the default-enabled
passes in registration order. -/
def resolvePassesToRun (registry : List CleanupPass) :
    Option (List String) → List CleanupPass
  | some names =>
      names.filterMap (fun n => registry.find? (fun p => p.name == n))
  | none => registry.filter (fun p => p.runsByDefault)

/-- Modelled from the spec: the execution loop of the three-argument
`cleanup` — run the resolved passes in order over the snapshot, skipping
a pass whose configured blacklist contains the snapshot's directory, as
the two-argument `cleanup` in `src/` does. Returns the final snapshot
and the invocation trace. -/
def runSelected (config : CleanupConfig) :
    List CleanupPass → ElementRepo → ElementRepo × List String
  | [], e => (e, [])
  | step :: rest, e =>
      if passBlacklisted config step.name e.dir then
        runSelected config rest e
      else
        ((runSelected config rest (step.pass e)).1,
         step.name :: (runSelected config rest (step.pass e)).2)

/-- Modelled from the spec: the three-argument `cleanup` — resolve the
pass list, then run it. -/
def cleanupWithPasses (registry : List CleanupPass) (config : CleanupConfig)
    (passesToRun : Option (List String)) (e : ElementRepo) :
    ElementRepo × List String :=
  runSelected config (resolvePassesToRun registry passesToRun) e

theorem runSelected_trace_total (sel : List CleanupPass) (e : ElementRepo) :
    (runSelected [] sel e).2 = sel.map CleanupPass.name := by
  induction sel generalizing e with
  | nil => rfl
  | cons step rest ih =>
      have hbl : passBlacklisted [] step.name e.dir = false := rfl
      rw [runSelected, if_neg (by simp [hbl])]
      simp [ih]

theorem cleanupWithPasses_none_eq_cleanup (registry : List CleanupPass)
    (config : CleanupConfig) (e : ElementRepo) :
    cleanupWithPasses registry config none e = cleanup registry config e := by
  unfold cleanupWithPasses resolvePassesToRun
  induction registry generalizing e with
  | nil => rfl
  | cons step rest ih =>
      rw [cleanup_cons]
      by_cases hrd : step.runsByDefault = false
      · rw [if_pos hrd, List.filter_cons_of_neg (by simp [hrd]), ih]
      · rw [if_neg hrd,
          List.filter_cons_of_pos (by simp at hrd; simp [hrd])]
        by_cases hbl : passBlacklisted config step.name e.dir = true
        · rw [if_pos hbl, runSelected, if_pos hbl, ih]
        · rw [if_neg hbl, runSelected, if_neg hbl, ih]

/-- C5: pass selection. With an explicit list of pass names — each of
them registered — the runner executes exactly the passes on that list,
in the given order, with no `runsByDefault` filtering (so
default-disabled passes run too): the resolved descriptors bear exactly
the requested names in order, and with no blacklist configured the
invocation trace is exactly the requested list. With no explicit list,
the resolved passes are exactly the registered passes with
`runsByDefault = true` in registration order, and the run agrees with
the two-argument `cleanup` of `src/` on every snapshot and
configuration. -/
theorem cleanup_pass_selection (registry : List CleanupPass)
    (config : CleanupConfig) (names : List String) (e : ElementRepo)
    (hfound : ∀ n ∈ names,
      (registry.find? (fun p => p.name == n)).isSome = true) :
    (resolvePassesToRun registry (some names)).map CleanupPass.name =
      names ∧
    (cleanupWithPasses registry [] (some names) e).2 = names ∧
    resolvePassesToRun registry none =
      registry.filter (fun p => p.runsByDefault) ∧
    cleanupWithPasses registry config none e = cleanup registry config e := by
  have hmap : (resolvePassesToRun registry (some names)).map
      CleanupPass.name = names := by
    induction names with
    | nil => rfl
    | cons n rest ih =>
        have hn := hfound n (List.mem_cons_self _ _)
        obtain ⟨q, hq⟩ := Option.isSome_iff_exists.mp hn
        have hqname : q.name = n := by simpa using List.find?_some hq
        have hrest : ∀ m ∈ rest,
            (registry.find? (fun p => p.name == m)).isSome = true :=
          fun m hm => hfound m (List.mem_cons_of_mem _ hm)
        rw [resolvePassesToRun] at ih ⊢
        rw [List.filterMap_cons, hq]
        simp only [List.map_cons, ih hrest, hqname]
  refine ⟨hmap, ?_, rfl, cleanupWithPasses_none_eq_cleanup registry config e⟩
  rw [cleanupWithPasses, runSelected_trace_total, hmap]

/-- A default-disabled pass used in the C5 witness. -/
def nonDefaultPass : CleanupPass :=
  { name := "npm-publish", runsByDefault := false, pass := fun e => e }

/-- A witness run of `cleanup_pass_selection`: explicitly requesting
`npm-publish` — a pass with `runsByDefault = false` — followed by
`bower` runs exactly those two passes in the requested order. -/
theorem cleanup_pass_selection_witness :
    (cleanupWithPasses [witnessPass, nonDefaultPass] []
        (some ["npm-publish", "bower"]) (mkElementRepo "repos/a")).2 =
      ["npm-publish", "bower"] :=
  (cleanup_pass_selection [witnessPass, nonDefaultPass] []
    ["npm-publish", "bower"] (mkElementRepo "repos/a")
    (by decide)).2.1

/-- The chained-delay `rateLimit` scheduler from `tedium.ts`, under an
explicit timing model. The closure keeps `previousPromise`; each call
`rateLimit(delay)` chains `previousPromise.then(() => new Promise((resolve) => setTimeout(resolve, delay)))`
and makes the result the new `previousPromise`. A call is modeled as a
pair `(delay, late)`: the `setTimeout` timer fires `late ≥ 0` time units
after its requested delay has elapsed (timers never fire early). Given
the resolve instant `prev` of the current `previousPromise`
(`Promise.resolve(null)` resolves at instant 0), the list returned holds
each successive call's promise-resolve instant. -/
def rateLimitChain (prev : Nat) : List (Nat × Nat) → List Nat
  | [] => []
  | (delay, late) :: rest =>
      (prev + delay + late) :: rateLimitChain (prev + delay + late) rest

theorem rateLimitChain_length (calls : List (Nat × Nat)) :
    ∀ prev : Nat, (rateLimitChain prev calls).length = calls.length := by
  induction calls with
  | nil => intro prev; rfl
  | cons c rest ih =>
      intro prev
      obtain ⟨d, l⟩ := c
      simp [rateLimitChain, ih]

theorem rateLimitChain_ge (calls : List (Nat × Nat)) :
    ∀ (prev i : Nat) (h : i < calls.length),
      (rateLimitChain prev calls).get
          ⟨i, by rw [rateLimitChain_length]; exact h⟩ ≥
        prev + ((calls.take (i + 1)).map Prod.fst).sum := by
  induction calls with
  | nil => intro prev i h; exact absurd h (by simp)
  | cons c rest ih =>
      intro prev i h
      obtain ⟨d, l⟩ := c
      cases i with
      | zero => simp [rateLimitChain, List.get]
      | succ i =>
          have hi : i < rest.length := by simpa using h
          have := ih (prev + d + l) i hi
          simp only [rateLimitChain, List.get, List.take, List.map_cons,
            List.sum_cons]
          omega

/-- C8: the promise returned by the `n`-th `rateLimit` call (counting
from zero) resolves no earlier than the sum of the delays of calls `0`
through `n`, for every sequence of concurrent calls and every (never
early) firing of the timers: each call's promise resolves only after all
delays requested by earlier calls have elapsed plus its own delay. -/
theorem rateLimit_spacing (calls : List (Nat × Nat)) (i : Nat)
    (h : i < calls.length) :
    (rateLimitChain 0 calls).get
        ⟨i, by rw [rateLimitChain_length]; exact h⟩ ≥
      ((calls.take (i + 1)).map Prod.fst).sum := by
  simpa using rateLimitChain_ge calls 0 i h

/-- A witness run of `rateLimit_spacing`: three calls with delays 100,
5000, 0 whose timers fire exactly on time; the third promise resolves at
instant 5100 ≥ 100 + 5000 + 0. -/
theorem rateLimit_spacing_witness :
    (rateLimitChain 0 [(100, 0), (5000, 0), (0, 0)]).get
        ⟨2, by rw [rateLimitChain_length]; decide⟩ ≥
      (([(100, 0), (5000, 0), (0, 0)].take 3).map Prod.fst).sum :=
  rateLimit_spacing [(100, 0), (5000, 0), (0, 0)] 2 (by decide)

/-- Per-element oracles for the transform loop of `_main`: whether the
branch checkout or a cleanup pass throws for this element,
the cumulative effect of the passes that ran on the snapshot's flags
(also the partial effect present when a later pass throws), and the push
oracles. -/
structure ElemOracle where
  cleanupThrows : Bool
  cleanupEffect : ElementRepo → ElementRepo
  push : PushOracle

/-- Result of the transform-and-push loop in `_main`: the shared
`elements` array as it stands when the loop finishes or aborts, the
governor counters, and the error wrapped with the failing repository's
identity, if any. -/
structure LoopResult where
  elements : List ElementRepo
  gov : GovernorState
  err : Option String

/-- The transform-and-push loop of `_main` in `tedium.ts`. The
`elements` array already holds every cloned element; the loop walks it
in order, skipping the excluded directories, running the cleanup passes
and then `pushChanges` on each element, mutating it in place. A thrown
error is wrapped as `Error updating <dir>` and aborts the loop
immediately; elements after the failing one keep the state they already
had, elements before it keep the dispositions their own processing
produced. -/
def transformLoop (maxChanges : Nat) (gov : GovernorState)
    (excludes : List String) (branch assignee : String) :
    List (ElementRepo × ElemOracle) → LoopResult
  | [] => { elements := [], gov := gov, err := none }
  | (e, o) :: rest =>
      if excludes.contains e.dir then
        let r := transformLoop maxChanges gov excludes branch assignee rest
        { r with elements := e :: r.elements }
      else if o.cleanupThrows then
        { elements := o.cleanupEffect e :: rest.map Prod.fst, gov := gov,
          err := some ("Error updating " ++ e.dir) }
      else
        let out := pushChanges maxChanges gov (o.cleanupEffect e) branch
          assignee o.push
        if out.thrown then
          { elements := out.element :: rest.map Prod.fst, gov := out.gov,
            err := some ("Error updating " ++ e.dir) }
        else
          let r := transformLoop maxChanges out.gov excludes branch
            assignee rest
          { r with elements := out.element :: r.elements }

/-- The end-of-run report of `reportOnChangesMade` in `tedium.ts`:
elements partitioned by final disposition (never-dirty elements, still
`unpushed`, are omitted), listed by directory. -/
structure Report where
  denied : List String
  pushed : List String
  failedDirs : List String
deriving DecidableEq, Repr

/-- Function `reportOnChangesMade` from `tedium.ts`. -/
def reportOnChangesMade (elements : List ElementRepo) : Report :=
  { denied := (elements.filter
      (fun e => e.pushStatus == PushStatus.denied)).map ElementRepo.dir,
    pushed := (elements.filter
      (fun e => e.pushStatus == PushStatus.succeeded)).map ElementRepo.dir,
    failedDirs := (elements.filter
      (fun e => e.pushStatus == PushStatus.failed)).map ElementRepo.dir }

/-- Observable outcome of `main` in `tedium.ts`: the report that got
printed (if any), the error surfaced on stderr (if any), and the
process exit status. -/
structure MainResult where
  report : Option Report
  surfacedError : Option String
  exitCode : Nat
deriving DecidableEq, Repr

/-- Function `main` from `tedium.ts`: run `_main` against the shared `elements`
array; on an error, attempt `reportOnChangesMade` on whatever the array
holds (swallowing a failure of the report itself, modeled by the
`reportThrows` oracle), then surface the original error and exit with
status 1. On success the report is printed and the process exits 0. -/
def main (maxChanges : Nat) (excludes : List String)
    (branch assignee : String) (items : List (ElementRepo × ElemOracle))
    (reportThrows : Bool) : MainResult :=
  let r := transformLoop maxChanges ⟨0, 0⟩ excludes branch assignee items
  match r.err with
  | none =>
      { report := some (reportOnChangesMade r.elements),
        surfacedError := none, exitCode := 0 }
  | some msg =>
      if reportThrows then
        { report := none, surfacedError := some msg, exitCode := 1 }
      else
        { report := some (reportOnChangesMade r.elements),
          surfacedError := some msg, exitCode := 1 }

theorem transformLoop_length (maxChanges : Nat) (excludes : List String)
    (branch assignee : String) :
    ∀ (items : List (ElementRepo × ElemOracle)) (gov : GovernorState),
      (transformLoop maxChanges gov excludes branch assignee
        items).elements.length = items.length := by
  intro items
  induction items with
  | nil => intro gov; rfl
  | cons p rest ih =>
      intro gov
      obtain ⟨e, o⟩ := p
      by_cases hex : e.dir ∈ excludes
      · simp [transformLoop, hex, ih]
      · by_cases hct : o.cleanupThrows
        · simp [transformLoop, hex, hct]
        · by_cases hth : (pushChanges maxChanges gov (o.cleanupEffect e)
              branch assignee o.push).thrown
          · simp [transformLoop, hex, hct, hth]
          · simp [transformLoop, hex, hct, hth, ih]

theorem transformLoop_append (maxChanges : Nat) (excludes : List String)
    (branch assignee : String) :
    ∀ (pre rest : List (ElementRepo × ElemOracle)) (gov : GovernorState),
      (transformLoop maxChanges gov excludes branch assignee pre).err =
        none →
      transformLoop maxChanges gov excludes branch assignee (pre ++ rest) =
        { elements :=
            (transformLoop maxChanges gov excludes branch assignee
              pre).elements ++
            (transformLoop maxChanges
              (transformLoop maxChanges gov excludes branch assignee
                pre).gov excludes branch assignee rest).elements,
          gov := (transformLoop maxChanges
            (transformLoop maxChanges gov excludes branch assignee
              pre).gov excludes branch assignee rest).gov,
          err := (transformLoop maxChanges
            (transformLoop maxChanges gov excludes branch assignee
              pre).gov excludes branch assignee rest).err } := by
  intro pre
  induction pre with
  | nil => intro rest gov _; rfl
  | cons p pre ih =>
      intro rest gov hok
      obtain ⟨e, o⟩ := p
      by_cases hex : excludes.contains e.dir
      · rw [List.cons_append]
        rw [transformLoop, if_pos hex] at hok ⊢
        rw [transformLoop, if_pos hex]
        simp only at hok
        rw [ih rest gov hok]
        simp
      · by_cases hct : o.cleanupThrows
        · rw [transformLoop, if_neg hex, if_pos hct] at hok
          simp at hok
        · by_cases hth : (pushChanges maxChanges gov (o.cleanupEffect e)
              branch assignee o.push).thrown
          · rw [transformLoop, if_neg hex, if_neg hct, if_pos hth] at hok
            simp at hok
          · rw [List.cons_append]
            rw [transformLoop, if_neg hex, if_neg hct, if_neg hth] at hok
            rw [transformLoop, if_neg hex, if_neg hct, if_neg hth]
            rw [transformLoop, if_neg hex, if_neg hct, if_neg hth]
            simp only at hok
            rw [ih rest _ hok]
            simp

/-- C4: failure isolation and best-effort reporting. If every
repository in `pre` processes without throwing and repository `x` —
not excluded — throws (in a cleanup pass or in its push/PR step), then
for the whole run over `pre ++ (x, o) :: rest`: the loop aborts with the
error wrapped with `x`'s identity; the repositories processed before `x`
keep exactly the elements (dispositions, commits) their own processing
produced; for either outcome of the report the run exits with status 1
and surfaces the original error; when the end-of-run report does not
itself throw it is printed over the shared elements array, and every
earlier repository appears under its correct disposition (`succeeded`
under pushed, `denied` under denied); when the report itself throws,
that secondary failure is swallowed and the original error is still what
gets surfaced. -/
theorem orchestrator_error_isolation (maxChanges : Nat)
    (excludes : List String) (branch assignee : String)
    (pre rest : List (ElementRepo × ElemOracle)) (x : ElementRepo)
    (o : ElemOracle)
    (hpre : (transformLoop maxChanges ⟨0, 0⟩ excludes branch assignee
      pre).err = none)
    (hexc : x.dir ∉ excludes)
    (hthrow : o.cleanupThrows = true ∨
      (pushChanges maxChanges
        (transformLoop maxChanges ⟨0, 0⟩ excludes branch assignee pre).gov
        (o.cleanupEffect x) branch assignee o.push).thrown = true) :
    (transformLoop maxChanges ⟨0, 0⟩ excludes branch assignee
        (pre ++ (x, o) :: rest)).err =
      some ("Error updating " ++ x.dir) ∧
    (transformLoop maxChanges ⟨0, 0⟩ excludes branch assignee
        (pre ++ (x, o) :: rest)).elements.take pre.length =
      (transformLoop maxChanges ⟨0, 0⟩ excludes branch assignee
        pre).elements ∧
    (∀ rt : Bool,
      (main maxChanges excludes branch assignee (pre ++ (x, o) :: rest)
        rt).exitCode = 1 ∧
      (main maxChanges excludes branch assignee (pre ++ (x, o) :: rest)
        rt).surfacedError = some ("Error updating " ++ x.dir)) ∧
    (main maxChanges excludes branch assignee (pre ++ (x, o) :: rest)
      false).report = some (reportOnChangesMade
        (transformLoop maxChanges ⟨0, 0⟩ excludes branch assignee
          (pre ++ (x, o) :: rest)).elements) ∧
    (main maxChanges excludes branch assignee (pre ++ (x, o) :: rest)
      true).report = none ∧
    (∀ e ∈ (transformLoop maxChanges ⟨0, 0⟩ excludes branch assignee
        pre).elements,
      (e.pushStatus = PushStatus.succeeded →
        e.dir ∈ (reportOnChangesMade
          (transformLoop maxChanges ⟨0, 0⟩ excludes branch assignee
            (pre ++ (x, o) :: rest)).elements).pushed) ∧
      (e.pushStatus = PushStatus.denied →
        e.dir ∈ (reportOnChangesMade
          (transformLoop maxChanges ⟨0, 0⟩ excludes branch assignee
            (pre ++ (x, o) :: rest)).elements).denied)) := by
  have hexb : ¬ (excludes.contains x.dir = true) := by simpa using hexc
  have happ := transformLoop_append maxChanges excludes branch assignee
    pre ((x, o) :: rest) ⟨0, 0⟩ hpre
  have herr : (transformLoop maxChanges
      (transformLoop maxChanges ⟨0, 0⟩ excludes branch assignee pre).gov
      excludes branch assignee ((x, o) :: rest)).err =
      some ("Error updating " ++ x.dir) := by
    rcases hthrow with hct | hth
    · rw [transformLoop, if_neg hexb, if_pos hct]
    · by_cases hct : o.cleanupThrows = true
      · rw [transformLoop, if_neg hexb, if_pos hct]
      · rw [transformLoop, if_neg hexb, if_neg hct, if_pos hth]
  have hlen : (transformLoop maxChanges ⟨0, 0⟩ excludes branch assignee
      pre).elements.length = pre.length :=
    transformLoop_length maxChanges excludes branch assignee pre ⟨0, 0⟩
  have herr2 : (transformLoop maxChanges ⟨0, 0⟩ excludes branch assignee
      (pre ++ (x, o) :: rest)).err = some ("Error updating " ++ x.dir) := by
    rw [happ]; exact herr
  have hels : (transformLoop maxChanges ⟨0, 0⟩ excludes branch assignee
      (pre ++ (x, o) :: rest)).elements =
      (transformLoop maxChanges ⟨0, 0⟩ excludes branch assignee
        pre).elements ++
      (transformLoop maxChanges
        (transformLoop maxChanges ⟨0, 0⟩ excludes branch assignee pre).gov
        excludes branch assignee ((x, o) :: rest)).elements := by
    rw [happ]
  refine ⟨herr2, ?_, ?_, ?_, ?_, ?_⟩
  · rw [hels, ← hlen, List.take_left]
  · intro rt
    cases rt <;> simp [main, herr2]
  · simp [main, herr2]
  · simp [main, herr2]
  · intro e he
    have hmem : e ∈ (transformLoop maxChanges ⟨0, 0⟩ excludes branch
        assignee (pre ++ (x, o) :: rest)).elements := by
      rw [hels]; exact List.mem_append_left _ he
    constructor
    · intro hst
      exact List.mem_map.mpr ⟨e, List.mem_filter.mpr ⟨hmem, by simp [hst]⟩,
        rfl⟩
    · intro hst
      exact List.mem_map.mpr ⟨e, List.mem_filter.mpr ⟨hmem, by simp [hst]⟩,
        rfl⟩

/-- A concrete two-repository run for the C4 witness: the first
repository cleans up and pushes fine, the second throws in cleanup. -/
def witnessItems : List (ElementRepo × ElemOracle) :=
  [(mkElementRepo "repos/a",
    { cleanupThrows := false,
      cleanupEffect := fun e => { e with dirty := true },
      push := ⟨true, true, true⟩ }),
   (mkElementRepo "repos/b",
    { cleanupThrows := true, cleanupEffect := fun e => e,
      push := ⟨true, true, true⟩ })]

/-- A witness run of `orchestrator_error_isolation`: with repository
`repos/b` throwing in cleanup after `repos/a` was processed, the run
exits with status 1. -/
theorem orchestrator_error_isolation_witness :
    (main 1 [] "auto-cleanup" "rictic" witnessItems false).exitCode = 1 :=
  ((orchestrator_error_isolation 1 [] "auto-cleanup" "rictic"
    [witnessItems.get ⟨0, by decide⟩] [] (mkElementRepo "repos/b")
    { cleanupThrows := true, cleanupEffect := fun e => e,
      push := ⟨true, true, true⟩ }
    rfl (by simp) (Or.inl rfl)).2.2.1 false).1

end Tedium
